import Mathlib

/-!
# Sprite-font pipeline, shallow embedding

This file embeds the algorithmic core of the tile-engine sprite-font
pipeline in Lean and proves properties of it:

* the shelf packer `packGlyphs`
  (`src/webview/src/plugins/sprite-font/sprite-font-tool.tsx`),
* the threshold post-processing of `measureGlyph` (same file),
* the export key construction of `exportSpriteFont` (same file), and
* the text layout engine `layoutText` / `buildLinesFromSegments` /
  `measureSegment` (`src/extension/src/tool/standalone-tool-provider.ts`).

Machine numbers: the packer works on canvas dimensions, which are
non-negative integers, so its quantities are `Nat`; JavaScript
comparisons of the form `w <= PAGE_SIZE - shelf.x` (over numbers, where
the subtraction may go negative) are rendered in the equivalent added
form `w + shelf.x ≤ PAGE_SIZE`.  The layout engine works on scaled
(fractional) pixel values, so its quantities are `ℚ`.
-/

namespace TileEngine

/-- The constant `PAGE_SIZE = 256` (sprite-font-tool.tsx). -/
def PAGE_SIZE : Nat := 256

/-- The part of a `GlyphBitmap` that the packer reads: its codepoint
(used in the too-large error message) and the bitmap dimensions
(`glyph.metrics.width` / `glyph.metrics.height`, which equal the canvas
dimensions). -/
structure GlyphBM where
  codepoint : Nat
  width : Nat
  height : Nat
deriving Repr, DecidableEq

/-- The source type `Shelf` with fields `y`, `height` and `x`, where `x` is the occupied width. -/
structure Shelf where
  y : Nat
  height : Nat
  x : Nat
deriving Repr, DecidableEq

/-- The source type `PageLayout` with fields `index`, `shelves` and `usedHeight`. -/
structure PageLayout where
  index : Nat
  shelves : List Shelf
  usedHeight : Nat
deriving Repr, DecidableEq

/-- A `PackedGlyph`: the glyph data together with `page`, `x`, `y`. -/
structure Placement where
  codepoint : Nat
  width : Nat
  height : Nat
  page : Nat
  x : Nat
  y : Nat
deriving Repr, DecidableEq

/-- The inner `for (const shelf of page.shelves)` loop of `packGlyphs`:
find the first shelf such that
`glyph.metrics.width <= PAGE_SIZE - shelf.x && glyph.metrics.height <= shelf.height`,
advance its occupied width and return the placement coordinates. -/
def placeInShelves (w h : Nat) : List Shelf → Option (List Shelf × Nat × Nat)
  | [] => none
  | s :: rest =>
    if w + s.x ≤ PAGE_SIZE ∧ h ≤ s.height then
      some ({ s with x := s.x + w } :: rest, s.x, s.y)
    else
      (placeInShelves w h rest).map (fun r => (s :: r.1, r.2))

/-- One iteration of the `for (const page of pages)` loop: first scan the
page's shelves, and if none fits, try to open a new shelf on this page
(`page.usedHeight + glyph.metrics.height <= PAGE_SIZE`), placed at
`(0, page.usedHeight)`. -/
def tryPage (w h : Nat) (pg : PageLayout) : Option (PageLayout × Nat × Nat) :=
  match placeInShelves w h pg.shelves with
  | some r => some ({ pg with shelves := r.1 }, r.2)
  | none =>
    if pg.usedHeight + h ≤ PAGE_SIZE then
      let pg' : PageLayout := { pg with shelves := pg.shelves ++ [⟨pg.usedHeight, h, w⟩],
                                        usedHeight := pg.usedHeight + h }
      some (pg', 0, pg.usedHeight)
    else
      none

/-- The full page loop: pages are visited in order, and within each page
the shelf scan and the new-shelf attempt happen before the next page is
considered.  Returns the updated page list, the accepting page's `index`
and the placement coordinates. -/
def tryPages (w h : Nat) : List PageLayout → Option (List PageLayout × Nat × Nat × Nat)
  | [] => none
  | pg :: rest =>
    match tryPage w h pg with
    | some r => some (r.1 :: rest, pg.index, r.2)
    | none => (tryPages w h rest).map (fun r => (pg :: r.1, r.2))

/-- The state threaded through the glyph loop of `packGlyphs`. -/
structure PackState where
  pages : List PageLayout
  placements : List Placement
deriving Repr, DecidableEq

/-- The body of the glyph loop of `packGlyphs`.  When no page accepts the
glyph, a fresh page is allocated; only there is the too-large check made
(`glyph.metrics.width > PAGE_SIZE || glyph.metrics.height > PAGE_SIZE`),
and the error carries the offending codepoint. -/
def packStep (st : PackState) (g : GlyphBM) : Except Nat PackState :=
  match tryPages g.width g.height st.pages with
  | some r =>
    .ok ⟨r.1, st.placements ++ [⟨g.codepoint, g.width, g.height, r.2.1, r.2.2.1, r.2.2.2⟩]⟩
  | none =>
    if g.width > PAGE_SIZE ∨ g.height > PAGE_SIZE then
      .error g.codepoint
    else
      .ok ⟨st.pages ++ [⟨st.pages.length, [⟨0, g.height, g.width⟩], g.height⟩],
           st.placements ++ [⟨g.codepoint, g.width, g.height, st.pages.length, 0, 0⟩]⟩

/-- The glyph loop: a `throw` aborts the whole run. -/
def packFold : PackState → List GlyphBM → Except Nat PackState
  | st, [] => .ok st
  | st, g :: gs =>
    match packStep st g with
    | .ok st' => packFold st' gs
    | .error e => .error e

/-- The sort `[...glyphs].sort((a, b) => b.metrics.height - a.metrics.height)`:
a stable sort by height descending.  JavaScript's `Array.prototype.sort`
is stable, and for a consistent comparator a stable sort's output is
unique, so insertion sort with the relation `b.height ≤ a.height`
produces exactly the same list. -/
def sortGlyphs (gs : List GlyphBM) : List GlyphBM :=
  gs.insertionSort (fun a b => b.height ≤ a.height)

/-- The packer `packGlyphs` (sprite-font-tool.tsx, lines 457-514): sort by height
descending, start from a single empty page, place every glyph, and
return the placements in placement order. -/
def packGlyphs (gs : List GlyphBM) : Except Nat (List Placement) :=
  (packFold ⟨[⟨0, [], 0⟩], []⟩ (sortGlyphs gs)).map (·.placements)

/-! ## Reference formulations of the packer's placement scan

`scanPages` abstracts "visit the pages in order and apply a per-page
placement attempt to each".  Instantiating the per-page attempt gives
both the scan order described by the specification (all existing shelves
of all pages first, then new shelves) and the per-page interleaved order
that the code actually implements. -/

/-- Try the first fitting existing shelf of one page (no new shelf). -/
def shelfPlaceOnPage (w h : Nat) (pg : PageLayout) : Option (PageLayout × Nat × Nat) :=
  (placeInShelves w h pg.shelves).map (fun r => ({ pg with shelves := r.1 }, r.2))

/-- Try to open a new shelf on one page, at `(0, pg.usedHeight)`. -/
def newShelfOnPage (w h : Nat) (pg : PageLayout) : Option (PageLayout × Nat × Nat) :=
  if pg.usedHeight + h ≤ PAGE_SIZE then
    let pg' : PageLayout := { pg with shelves := pg.shelves ++ [⟨pg.usedHeight, h, w⟩],
                                      usedHeight := pg.usedHeight + h }
    some (pg', 0, pg.usedHeight)
  else
    none

/-- Visit pages in order and return the first page on which the per-page
attempt `f` succeeds, together with that page's `index` and the
placement coordinates. -/
def scanPages (f : PageLayout → Option (PageLayout × Nat × Nat)) :
    List PageLayout → Option (List PageLayout × Nat × Nat × Nat)
  | [] => none
  | pg :: rest =>
    match f pg with
    | some r => some (r.1 :: rest, pg.index, r.2)
    | none => (scanPages f rest).map (fun r => (pg :: r.1, r.2))

/-- The claimed scan order (following the claim's words): first scan all
existing shelves of all pages (page order, then shelf order within a
page); only if no existing shelf on any page fits, open a new shelf on
the first page with enough remaining height. -/
def tryPagesClaimed (w h : Nat) (pages : List PageLayout) :
    Option (List PageLayout × Nat × Nat × Nat) :=
  (scanPages (shelfPlaceOnPage w h) pages).orElse
    (fun _ => scanPages (newShelfOnPage w h) pages)

/-- The claimed per-glyph step: the claimed scan order, then (exactly as
in the code) a fresh page with the too-large check. -/
def packStepClaimed (st : PackState) (g : GlyphBM) : Except Nat PackState :=
  match tryPagesClaimed g.width g.height st.pages with
  | some r =>
    .ok ⟨r.1, st.placements ++ [⟨g.codepoint, g.width, g.height, r.2.1, r.2.2.1, r.2.2.2⟩]⟩
  | none =>
    if g.width > PAGE_SIZE ∨ g.height > PAGE_SIZE then
      .error g.codepoint
    else
      .ok ⟨st.pages ++ [⟨st.pages.length, [⟨0, g.height, g.width⟩], g.height⟩],
           st.placements ++ [⟨g.codepoint, g.width, g.height, st.pages.length, 0, 0⟩]⟩

/-- The claimed glyph loop. -/
def packFoldClaimed : PackState → List GlyphBM → Except Nat PackState
  | st, [] => .ok st
  | st, g :: gs =>
    match packStepClaimed st g with
    | .ok st' => packFoldClaimed st' gs
    | .error e => .error e

/-- The packer as the claim describes it (only the placement scan order
differs from `packGlyphs`). -/
def packGlyphsClaimed (gs : List GlyphBM) : Except Nat (List Placement) :=
  (packFoldClaimed ⟨[⟨0, [], 0⟩], []⟩ (sortGlyphs gs)).map (·.placements)

/-- The amended per-page attempt, from the amended claim's words: on
each page, first the page's own shelves, then a new shelf on that same
page, before the next page is considered. -/
def tryPageAmended (w h : Nat) (pg : PageLayout) : Option (PageLayout × Nat × Nat) :=
  (shelfPlaceOnPage w h pg).orElse (fun _ => newShelfOnPage w h pg)

/-- The amended per-glyph step: one scan with the per-page attempt. -/
def packStepAmended (st : PackState) (g : GlyphBM) : Except Nat PackState :=
  match scanPages (tryPageAmended g.width g.height) st.pages with
  | some r =>
    .ok ⟨r.1, st.placements ++ [⟨g.codepoint, g.width, g.height, r.2.1, r.2.2.1, r.2.2.2⟩]⟩
  | none =>
    if g.width > PAGE_SIZE ∨ g.height > PAGE_SIZE then
      .error g.codepoint
    else
      .ok ⟨st.pages ++ [⟨st.pages.length, [⟨0, g.height, g.width⟩], g.height⟩],
           st.placements ++ [⟨g.codepoint, g.width, g.height, st.pages.length, 0, 0⟩]⟩

/-- The packer with the amended (per-page interleaved) scan order. -/
def packGlyphsAmended (gs : List GlyphBM) : Except Nat (List Placement) :=
  ((sortGlyphs gs).foldlM packStepAmended ⟨[⟨0, [], 0⟩], []⟩).map (·.placements)

/-! ## Packing invariants -/

/-- Two placements' axis-aligned rectangles overlap: both the horizontal
and the vertical extents intersect. -/
def rectsOverlap (p q : Placement) : Prop :=
  max p.x q.x < min (p.x + p.width) (q.x + q.width) ∧
  max p.y q.y < min (p.y + p.height) (q.y + q.height)

/-- The shelves of a page are stacked: starting at height `y`, each
shelf sits at the running height and the page's `usedHeight` is the
total.  This is exactly how `packGlyphs` creates shelves. -/
def shelvesStacked : Nat → List Shelf → Nat → Prop
  | y, [], u => u = y
  | y, s :: rest, u => s.y = y ∧ shelvesStacked (y + s.height) rest u

/-- Well-formedness of one page. -/
structure PageInv (pg : PageLayout) : Prop where
  stacked : shelvesStacked 0 pg.shelves pg.usedHeight
  bounded : pg.usedHeight ≤ PAGE_SIZE

/-- A placement lies inside a shelf: same `y`, height within the shelf
height, and horizontal extent within the shelf's occupied width. -/
def placementFits (p : Placement) (s : Shelf) : Prop :=
  p.y = s.y ∧ p.height ≤ s.height ∧ p.x + p.width ≤ s.x

/-- The per-placement part of the packer invariant, relative to the page
the placement sits on: the placement lies in some shelf of the page, and
every positive-height shelf sharing its `y` already accounts for it in
its occupied width. -/
def placedOnPage (p : Placement) (pg : PageLayout) : Prop :=
  (∃ s ∈ pg.shelves, placementFits p s) ∧
  (∀ s ∈ pg.shelves, 0 < s.height → 0 < p.height → p.y = s.y → p.x + p.width ≤ s.x)

/-- The packer's loop invariant. -/
structure PackInv (st : PackState) : Prop where
  idx : st.pages.map (·.index) = List.range st.pages.length
  pinv : ∀ pg ∈ st.pages, PageInv pg
  pageAt : ∀ p ∈ st.placements, ∃ pg, st.pages[p.page]? = some pg ∧ placedOnPage p pg
  disj : st.placements.Pairwise (fun p q => p.page = q.page → p.y = q.y →
    0 < p.height → 0 < q.height → p.x + p.width ≤ q.x ∨ q.x + q.width ≤ p.x)

/-- Occupied shelf widths stay within the page (holds only when every
glyph placed so far has width at most `PAGE_SIZE`). -/
def shelvesW (st : PackState) : Prop :=
  ∀ pg ∈ st.pages, ∀ s ∈ pg.shelves, s.x ≤ PAGE_SIZE

/-! ## Codepoint sets and export keys -/

/-- The expression `Array.from(new Set(values))`: keep the first occurrence of each
value, in encounter order. -/
def dedupFirst (vals : List Nat) : List Nat :=
  vals.foldl (fun acc v => if v ∈ acc then acc else acc ++ [v]) []

/-- The helper `uniqueSorted` (sprite-font-tool.tsx): de-duplicate, then sort
ascending (`.sort((a, b) => a - b)`). -/
def uniqueSorted (vals : List Nat) : List Nat :=
  (dedupFirst vals).insertionSort (· ≤ ·)

/-- The keys that `exportSpriteFont` writes into `glyphRecord`: one key
`glyph.codepoint.toString()` per placement, in placement order.  (The
decimal-string key of the record is identified with the number itself:
the map `Nat → String` by decimal printing is injective.) -/
def exportGlyphKeys (ps : List Placement) : List Nat :=
  ps.map (·.codepoint)

/-- The glyph bitmaps that `exportSpriteFont` hands to `packGlyphs`: one
per requested codepoint, with `codepoint` forced to the requested value
(`measured.metrics.codepoint = cp; { ...measured, codepoint: cp }`) and
rasterizer-dependent dimensions `dims`. -/
def exportBitmaps (vals : List Nat) (dims : Nat → Nat × Nat) : List GlyphBM :=
  (uniqueSorted vals).map (fun cp => ⟨cp, (dims cp).1, (dims cp).2⟩)

/-! ## Rasterizer post-processing (antialias = false) -/

/-- One RGBA pixel of the glyph canvas (the flat `data` array taken in
stride-4 groups). -/
structure Pixel where
  r : Nat
  g : Nat
  b : Nat
  a : Nat
deriving Repr, DecidableEq

/-- The `if (!antialias())` loop of `measureGlyph`: alpha above 127
becomes opaque white, otherwise only the alpha is cleared. -/
def thresholdPixels (ps : List Pixel) : List Pixel :=
  ps.map (fun p => if 127 < p.a then ⟨255, 255, 255, 255⟩ else ⟨p.r, p.g, p.b, 0⟩)

/-! ## Text layout engine (standalone-tool-provider.ts)

Strings are modelled as lists of Unicode codepoints, which is what
`for (const ch of text)` iterates over.  Pixel quantities are `ℚ`
(JavaScript numbers holding scaled, possibly fractional, values). -/

/-- The part of an exported `GlyphMetrics` that the layout engine reads
(`xAdvance`, `kerning`); the remaining exported fields are carried
around opaquely and never inspected by layout, so they are omitted. -/
structure GlyphMetrics where
  codepoint : Nat
  xAdvance : ℚ
  kerning : List (Nat × ℚ)
deriving Repr, DecidableEq

/-- Lookup in a JS record keyed by (decimal strings of) numbers. -/
def lookupRec {α : Type} (m : List (Nat × α)) (k : Nat) : Option α :=
  (m.find? (fun p => p.1 == k)).map (·.2)

/-- The record `asset.glyphs`. -/
abbrev GlyphMap := List (Nat × GlyphMetrics)

/-- The part of `asset.info` that layout reads. -/
structure AssetInfo where
  lineHeight : ℚ
  baseline : ℚ
deriving Repr, DecidableEq

/-- The part of a `SpriteFontAsset` that the layout engine reads. -/
structure SpriteFontAsset where
  info : AssetInfo
  glyphs : GlyphMap
deriving Repr, DecidableEq

structure PlacedGlyph where
  metrics : GlyphMetrics
  x : ℚ
  y : ℚ
deriving Repr, DecidableEq

structure TextLine where
  glyphs : List PlacedGlyph
  width : ℚ
  height : ℚ
  baseline : ℚ
deriving Repr, DecidableEq

/-- The value `ch.charCodeAt(0)` where `ch` ranges over the codepoints of a
string: the first UTF-16 code unit, i.e. the codepoint itself on the
basic multilingual plane and the high surrogate above it. -/
def charKey (cp : Nat) : Nat :=
  if cp < 0x10000 then cp else 0xD800 + (cp - 0x10000) / 0x400

/-- The per-character lookup of `measureSegment`:
`asset.glyphs[charCode.toString()]`, falling back to `asset.glyphs["63"]`. -/
def lookupGlyph (glyphs : GlyphMap) (cp : Nat) : Option GlyphMetrics :=
  match lookupRec glyphs (charKey cp) with
  | some g => some g
  | none => lookupRec glyphs 63

/-- The kerning read `(cp !== null && glyph.kerning?.[cp]) ? glyph.kerning[cp] : 0` — the
current glyph's kerning table keyed by the previous code unit.  (A
stored value of `0` is falsy in JS and takes the `: 0` branch, which is
the same result as reading it, so `getD 0` is exact.) -/
def kernFor (g : GlyphMetrics) (prev : Option Nat) : ℚ :=
  match prev with
  | none => 0
  | some cp => (lookupRec g.kerning cp).getD 0

/-- The `for (const ch of segment)` loop of `measureSegment`: `x` is the
advance accumulated inside the segment, `cp` the previous character's
code unit, `acc` the glyphs placed so far. -/
def measureChars (glyphs : GlyphMap) (startX : ℚ) :
    List Nat → ℚ → Option Nat → List PlacedGlyph → List PlacedGlyph × ℚ × Option Nat
  | [], x, cp, acc => (acc, x, cp)
  | ch :: rest, x, cp, acc =>
    match lookupGlyph glyphs ch with
    | none => measureChars glyphs startX rest x cp acc
    | some g =>
      let kern := kernFor g cp
      measureChars glyphs startX rest (x + g.xAdvance + kern) (some (charKey ch))
        (acc ++ [⟨g, startX + x + kern, 0⟩])

/-- The function `measureSegment(segment, startX, asset, prevCP)`. -/
def measureSegment (segment : List Nat) (startX : ℚ) (glyphs : GlyphMap)
    (prevCP : Option Nat) : List PlacedGlyph × ℚ × Option Nat :=
  measureChars glyphs startX segment 0 prevCP []

/-- The claim's reading of the kerning rule, for comparison: the
adjustment comes from the PREVIOUS character's metrics, keyed by the
CURRENT character's codepoint. -/
def measureCharsClaimed (glyphs : GlyphMap) (startX : ℚ) :
    List Nat → ℚ → Option GlyphMetrics → List PlacedGlyph → List PlacedGlyph × ℚ
  | [], x, _, acc => (acc, x)
  | ch :: rest, x, prevG, acc =>
    match lookupGlyph glyphs ch with
    | none => measureCharsClaimed glyphs startX rest x prevG acc
    | some g =>
      let kern : ℚ := match prevG with
        | none => 0
        | some pg => (lookupRec pg.kerning ch).getD 0
      measureCharsClaimed glyphs startX rest (x + g.xAdvance + kern) (some g)
        (acc ++ [⟨g, startX + x + kern, 0⟩])

/-- Segment measurement as claim C5 describes it. -/
def measureSegmentClaimed (segment : List Nat) (startX : ℚ) (glyphs : GlyphMap) :
    List PlacedGlyph × ℚ :=
  measureCharsClaimed glyphs startX segment 0 none []

/-- The codepoints matched by the regex `/\s/` (ECMAScript WhiteSpace
and LineTerminator). -/
def jsWhitespace : List Nat :=
  [9, 10, 11, 12, 13, 32, 0xA0, 0x1680, 0x2000, 0x2001, 0x2002, 0x2003, 0x2004,
   0x2005, 0x2006, 0x2007, 0x2008, 0x2009, 0x200A, 0x2028, 0x2029, 0x202F, 0x205F,
   0x3000, 0xFEFF]

def isSpace (cp : Nat) : Bool := jsWhitespace.contains cp

/-- The loop of `breakIntoSegments`: flush the buffer whenever the
space/non-space kind changes. -/
def breakAux : List Nat → List Nat → Bool → List (List Nat) → List (List Nat)
  | [], buffer, _, acc => if buffer.isEmpty then acc else acc ++ [buffer]
  | ch :: rest, buffer, wasSpace, acc =>
    let s := isSpace ch
    if ¬ buffer.isEmpty ∧ s ≠ wasSpace then
      breakAux rest [ch] s (acc ++ [buffer])
    else
      breakAux rest (buffer ++ [ch]) s acc

/-- The function `breakIntoSegments(text)`: alternating whitespace/non-whitespace
runs. -/
def breakIntoSegments (text : List Nat) : List (List Nat) :=
  breakAux text [] false []

/-- The split `text.split(/\r?\n/)`. -/
def splitParagraphs : List Nat → List (List Nat)
  | [] => [[]]
  | 13 :: 10 :: rest => [] :: splitParagraphs rest
  | 10 :: rest => [] :: splitParagraphs rest
  | c :: rest =>
    match splitParagraphs rest with
    | p :: ps => (c :: p) :: ps
    | [] => [[c]]

/-- The mutable line-building state of `buildLinesFromSegments`. -/
structure LineState where
  lines : List TextLine
  cur : List PlacedGlyph
  xPos : ℚ
  lineW : ℚ
  lastCP : Option Nat
deriving Repr, DecidableEq

/-- The local function `commitLine()`. -/
def commitLine (rowH baselineOff : ℚ) (st : LineState) : LineState :=
  ⟨st.lines ++ [⟨st.cur, st.lineW, rowH, baselineOff⟩], [], 0, 0, none⟩

/-- The body of the `for (const seg of segments)` loop. -/
def lineStep (wrap : Bool) (maxW : ℚ) (glyphs : GlyphMap) (rowH baselineOff : ℚ)
    (st : LineState) (seg : List Nat) : LineState :=
  let m := measureSegment seg st.xPos glyphs st.lastCP
  if wrap = true ∧ maxW < st.xPos + m.2.1 ∧ 0 < st.cur.length then
    let st' := commitLine rowH baselineOff st
    let r := measureSegment seg 0 glyphs none
    ⟨st'.lines, r.1, r.2.1, r.2.1, r.2.2⟩
  else
    ⟨st.lines, st.cur ++ m.1, st.xPos + m.2.1, st.xPos + m.2.1, m.2.2⟩

/-- The function `buildLinesFromSegments(segments, wrap, maxW, asset, rowH, baselineOff)`. -/
def buildLinesFromSegments (segments : List (List Nat)) (wrap : Bool) (maxW : ℚ)
    (glyphs : GlyphMap) (rowH baselineOff : ℚ) : List TextLine :=
  let st := segments.foldl (lineStep wrap maxW glyphs rowH baselineOff) ⟨[], [], 0, 0, none⟩
  if 0 < st.cur.length then (commitLine rowH baselineOff st).lines else st.lines

/-- The function `layoutText(text, maxWidth, asset)`. -/
def layoutText (text : List Nat) (maxWidth : ℚ) (asset : SpriteFontAsset) : List TextLine :=
  let wrappingEnabled := decide (0 < maxWidth)
  (splitParagraphs text).foldl
    (fun result para =>
      if para.isEmpty then
        result ++ [⟨[], 0, asset.info.lineHeight, asset.info.baseline⟩]
      else
        result ++ buildLinesFromSegments (breakIntoSegments para) wrappingEnabled maxWidth
          asset.glyphs asset.info.lineHeight asset.info.baseline)
    []

/-! ### Segment-annotated line building

`buildLinesA` is `buildLinesFromSegments` instrumented to record, for
each produced line, how many segments were committed into it; a
projection lemma shows it computes the same lines.  Claims about "a
line containing more than one segment" are phrased through it. -/

/-- A produced line together with the number of segments committed into
it. -/
structure AnnLine where
  line : TextLine
  segCount : Nat
deriving Repr, DecidableEq

structure LineStateA where
  lines : List AnnLine
  cur : List PlacedGlyph
  xPos : ℚ
  lineW : ℚ
  lastCP : Option Nat
  curSegs : Nat
deriving Repr, DecidableEq

def commitLineA (rowH baselineOff : ℚ) (st : LineStateA) : LineStateA :=
  ⟨st.lines ++ [⟨⟨st.cur, st.lineW, rowH, baselineOff⟩, st.curSegs⟩], [], 0, 0, none, 0⟩

def lineStepA (wrap : Bool) (maxW : ℚ) (glyphs : GlyphMap) (rowH baselineOff : ℚ)
    (st : LineStateA) (seg : List Nat) : LineStateA :=
  let m := measureSegment seg st.xPos glyphs st.lastCP
  if wrap = true ∧ maxW < st.xPos + m.2.1 ∧ 0 < st.cur.length then
    let st' := commitLineA rowH baselineOff st
    let r := measureSegment seg 0 glyphs none
    ⟨st'.lines, r.1, r.2.1, r.2.1, r.2.2, 1⟩
  else
    ⟨st.lines, st.cur ++ m.1, st.xPos + m.2.1, st.xPos + m.2.1, m.2.2, st.curSegs + 1⟩

def buildLinesA (segments : List (List Nat)) (wrap : Bool) (maxW : ℚ)
    (glyphs : GlyphMap) (rowH baselineOff : ℚ) : List AnnLine :=
  let st := segments.foldl (lineStepA wrap maxW glyphs rowH baselineOff) ⟨[], [], 0, 0, none, 0⟩
  if 0 < st.cur.length then (commitLineA rowH baselineOff st).lines else st.lines

/-- The layout `layoutText` with segment-annotated lines (a blank line has segment
count 0). -/
def layoutTextA (text : List Nat) (maxWidth : ℚ) (asset : SpriteFontAsset) : List AnnLine :=
  let wrappingEnabled := decide (0 < maxWidth)
  (splitParagraphs text).foldl
    (fun result para =>
      if para.isEmpty then
        result ++ [⟨⟨[], 0, asset.info.lineHeight, asset.info.baseline⟩, 0⟩]
      else
        result ++ buildLinesA (breakIntoSegments para) wrappingEnabled maxWidth
          asset.glyphs asset.info.lineHeight asset.info.baseline)
    []

/-- Forget the segment annotations of the instrumented line state. -/
def forgetSegs (st : LineStateA) : LineState :=
  ⟨st.lines.map (·.line), st.cur, st.xPos, st.lineW, st.lastCP⟩

/-- The per-line property of (amended) claim C6: a line built from more
than one segment fits the wrap width, and a line built from at least one
segment holds at least one glyph. -/
def GoodLine (maxW : ℚ) (l : AnnLine) : Prop :=
  (1 < l.segCount → l.line.width ≤ maxW) ∧ (l.segCount ≠ 0 → l.line.glyphs ≠ [])

/-- The loop invariant of the line builder. -/
def LineInv (maxW : ℚ) (st : LineStateA) : Prop :=
  (∀ l ∈ st.lines, GoodLine maxW l) ∧ st.lineW = st.xPos ∧
  (1 < st.curSegs → st.xPos ≤ maxW) ∧ (st.curSegs ≠ 0 → st.cur ≠ [])

/-- A small example asset used in concrete layout theorems (fallback
key 63 present). -/
def exAsset : SpriteFontAsset :=
  ⟨⟨12, 9⟩, [(65, ⟨65, 10, []⟩), (32, ⟨32, 3, []⟩), (66, ⟨66, 10, []⟩), (63, ⟨63, 5, []⟩)]⟩

/-- An example asset with a single glyph under key 66 and no fallback
key 63 (keys 65 and 32 are absent as well). -/
def exAssetNo63 : SpriteFontAsset := ⟨⟨12, 9⟩, [(66, ⟨66, 10, []⟩)]⟩

instance {ε α : Type} [DecidableEq ε] [DecidableEq α] : DecidableEq (Except ε α) := by
  intro a b
  cases a <;> cases b
  case error.error e e' =>
    exact decidable_of_iff (e = e') ⟨fun h => by rw [h], fun h => by cases h; rfl⟩
  case ok.ok x y =>
    exact decidable_of_iff (x = y) ⟨fun h => by rw [h], fun h => by cases h; rfl⟩
  case error.ok e x => exact isFalse (fun h => by cases h)
  case ok.error x e => exact isFalse (fun h => by cases h)

/-! # Theorems -/

/-! ## Basic evaluations of the packer -/

theorem packGlyphs_two_small : packGlyphs [⟨65, 10, 20⟩, ⟨66, 10, 20⟩] =
    .ok [⟨65, 10, 20, 0, 0, 0⟩, ⟨66, 10, 20, 0, 10, 0⟩] := by decide

theorem packGlyphs_too_tall : packGlyphs [⟨65, 10, 300⟩] = .error 65 := by decide

/-! ## The too-large check is only made on a freshly allocated page -/

/-- C3: `packGlyphs` fails iff some bitmap is wider or taller than the
page — REFUTED on the width side.  The too-large check sits only in the
fresh-page branch, so a 300×10 bitmap (width 300 > 256) is accepted
without the glyph-too-large error: the initial page takes it as a new
shelf, where only the height is checked.  The spec's contract (fail with
GlyphTooLarge, as the code's own error message "does not fit in a
256x256 page" also intends) is violated by the code. -/
theorem packGlyphs_overwideAccepted :
    packGlyphs [⟨63, 300, 10⟩] = .ok [⟨63, 300, 10, 0, 0, 0⟩] ∧ PAGE_SIZE < 300 := by decide

/-- C1 counterexample: an accepted input whose returned placement
violates `x + width ≤ pageSize`: the accepted 300×10 bitmap is placed at
`x = 0` with `x + width = 300 > 256`. -/
theorem packGlyphs_bounds_counterexample :
    packGlyphs [⟨63, 300, 10⟩] = .ok [⟨63, 300, 10, 0, 0, 0⟩] ∧
    ¬ (0 + 300 ≤ PAGE_SIZE) := by decide

/-! ## Scan order of the placement loop (C4) -/

/-- The code's placement of ⟨67, 10, 50⟩: page 0 at (0, 200), because
page 0's new-shelf attempt precedes page 1's shelf scan. -/
theorem packGlyphs_scanOrder_code :
    packGlyphs [⟨65, 256, 200⟩, ⟨66, 100, 200⟩, ⟨67, 10, 50⟩] =
      .ok [⟨65, 256, 200, 0, 0, 0⟩, ⟨66, 100, 200, 1, 0, 0⟩, ⟨67, 10, 50, 0, 0, 200⟩] := by
  decide

/-- The claimed scan order places ⟨67, 10, 50⟩ on page 1 at (100, 0):
page 1's existing shelf is scanned before any new shelf is opened. -/
theorem packGlyphs_scanOrder_claimed :
    packGlyphsClaimed [⟨65, 256, 200⟩, ⟨66, 100, 200⟩, ⟨67, 10, 50⟩] =
      .ok [⟨65, 256, 200, 0, 0, 0⟩, ⟨66, 100, 200, 1, 0, 0⟩, ⟨67, 10, 50, 1, 100, 0⟩] := by
  decide

/-- C4 counterexample: the packer does NOT scan all existing shelves of
all pages before opening a new shelf — on ⟨65,256,200⟩, ⟨66,100,200⟩,
⟨67,10,50⟩ the code differs from the claimed scan order. -/
theorem packGlyphs_scanOrder_counterexample :
    packGlyphs [⟨65, 256, 200⟩, ⟨66, 100, 200⟩, ⟨67, 10, 50⟩] ≠
      packGlyphsClaimed [⟨65, 256, 200⟩, ⟨66, 100, 200⟩, ⟨67, 10, 50⟩] := by decide

/-! ## Kerning direction in layout (C5) -/

/-- C5: the exported table stores the pair (A=65 followed by B=66) as
`kerning[66] = -2` on A's metrics, but `measureSegment` reads the
CURRENT glyph's table keyed by the PREVIOUS code unit, so laying out
"AB" applies no adjustment: B lands at x = 10 and the width is 17.
Under the claim's rule (previous character's kerning keyed by the
current codepoint) B would land at x = 8 with width 15. -/
theorem measureSegment_kerningDirection :
    measureSegment [65, 66] 0 [(65, ⟨65, 10, [(66, -2)]⟩), (66, ⟨66, 7, []⟩)] none =
      ([⟨⟨65, 10, [(66, -2)]⟩, 0, 0⟩, ⟨⟨66, 7, []⟩, 10, 0⟩], 17, some 66) ∧
    measureSegmentClaimed [65, 66] 0 [(65, ⟨65, 10, [(66, -2)]⟩), (66, ⟨66, 7, []⟩)] =
      ([⟨⟨65, 10, [(66, -2)]⟩, 0, 0⟩, ⟨⟨66, 7, []⟩, 8, 0⟩], 15) ∧
    lookupRec ([(66, (-2 : ℚ))]) 66 = some (-2) := by
  norm_num [measureSegment, measureChars, measureSegmentClaimed, measureCharsClaimed,
    lookupGlyph, lookupRec, charKey, kernFor]

/-! ## Threshold post-processing (C8) -/

/-- C8: with antialias disabled, a pixel with alpha above 127 becomes
fully opaque white and a pixel with alpha at most 127 keeps its colour
but becomes fully transparent (alpha 0). -/
theorem thresholdPixels_claim (ps : List Pixel) (i : Nat) (p : Pixel)
    (hp : ps[i]? = some p) :
    (127 < p.a → (thresholdPixels ps)[i]? = some ⟨255, 255, 255, 255⟩) ∧
    (p.a ≤ 127 → (thresholdPixels ps)[i]? = some ⟨p.r, p.g, p.b, 0⟩) := by
  constructor
  · intro h
    simp [thresholdPixels, List.getElem?_map, hp, if_pos h]
  · intro h
    simp [thresholdPixels, List.getElem?_map, hp, if_neg (Nat.not_lt.mpr h)]

/-- Witness for C8 at the spec's concrete alphas: 140 maps to opaque
white, 100 to a fully transparent pixel. -/
theorem thresholdPixels_claim_witness :
    (thresholdPixels [⟨9, 9, 9, 140⟩, ⟨1, 2, 3, 100⟩])[0]? = some ⟨255, 255, 255, 255⟩ ∧
    (thresholdPixels [⟨9, 9, 9, 140⟩, ⟨1, 2, 3, 100⟩])[1]? = some ⟨1, 2, 3, 0⟩ :=
  ⟨(thresholdPixels_claim [⟨9, 9, 9, 140⟩, ⟨1, 2, 3, 100⟩] 0 ⟨9, 9, 9, 140⟩ rfl).1 (by decide),
   (thresholdPixels_claim [⟨9, 9, 9, 140⟩, ⟨1, 2, 3, 100⟩] 1 ⟨1, 2, 3, 100⟩ rfl).2 (by decide)⟩

/-! ## Surrogate lookup keys (C10) -/

/-- C10 counterexample: the clause "never found, hence rendered with the
fallback under 63 (or skipped)" fails when the asset happens to contain
the surrogate key itself: with glyphs = {55296 ↦ m} and no key 63, the
character U+10000 is not skipped — it is rendered with m (the entry
under its high surrogate 55296). -/
theorem charKey_surrogate_counterexample :
    0xFFFF < 65536 ∧ charKey 65536 = 55296 ∧
    lookupRec ([(55296, (⟨55296, 4, []⟩ : GlyphMetrics))] : GlyphMap) 63 = none ∧
    measureSegment [65536] 0 [(55296, ⟨55296, 4, []⟩)] none =
      ([⟨⟨55296, 4, []⟩, 0, 0⟩], 4, some 55296) := by
  norm_num [measureSegment, measureChars, lookupGlyph, lookupRec, charKey, kernFor]

/-- C10 amended: the lookup key is `charCodeAt(0)`; for a codepoint
above 0xFFFF it is the high surrogate (in 0xD800–0xDBFF, never the
codepoint itself), and the character is rendered with the entry stored
under that surrogate key if present, else the fallback metrics under
key 63, else skipped. -/
theorem charKey_surrogate_amended (cp : Nat) (h1 : 0xFFFF < cp) (h2 : cp ≤ 0x10FFFF)
    (glyphs : GlyphMap) :
    0xD800 ≤ charKey cp ∧ charKey cp ≤ 0xDBFF ∧ charKey cp ≠ cp ∧
    lookupGlyph glyphs cp = (lookupRec glyphs (charKey cp)).orElse
      (fun _ => lookupRec glyphs 63) ∧
    (∀ startX rest x prev acc, lookupGlyph glyphs cp = none →
      measureChars glyphs startX (cp :: rest) x prev acc =
        measureChars glyphs startX rest x prev acc) := by
  have hkey : charKey cp = 0xD800 + (cp - 0x10000) / 0x400 := by
    unfold charKey
    rw [if_neg (by omega)]
  have hub : charKey cp ≤ 0xDBFF := by
    rw [hkey]
    have : (cp - 0x10000) / 0x400 ≤ 0xFFFFF / 0x400 :=
      Nat.div_le_div_right (by omega)
    omega
  refine ⟨by rw [hkey]; omega, hub, by omega, ?_, ?_⟩
  · unfold lookupGlyph
    cases lookupRec glyphs (charKey cp) <;> rfl
  · intro startX rest x prev acc hnone
    rw [show measureChars glyphs startX (cp :: rest) x prev acc =
        (match lookupGlyph glyphs cp with
         | none => measureChars glyphs startX rest x prev acc
         | some g =>
           let kern := kernFor g prev
           measureChars glyphs startX rest (x + g.xAdvance + kern) (some (charKey cp))
             (acc ++ [⟨g, startX + x + kern, 0⟩])) from rfl, hnone]

/-- Witness for C10 amended at U+10000 (high surrogate 0xD800). -/
theorem charKey_surrogate_amended_witness :
    (0xD800 ≤ charKey 65536 ∧ charKey 65536 ≤ 0xDBFF ∧ charKey 65536 ≠ 65536 ∧
      lookupGlyph [] 65536 = (lookupRec [] (charKey 65536)).orElse
        (fun _ => lookupRec [] 63) ∧
      (∀ startX rest x prev acc, lookupGlyph [] 65536 = none →
        measureChars [] startX (65536 :: rest) x prev acc =
          measureChars [] startX rest x prev acc)) :=
  charKey_surrogate_amended 65536 (by decide) (by decide) []

/-! ## Missing glyphs fall back to "63" or are skipped (C7) -/

/-- Helper: characters without a usable glyph (`continue` in the code)
contribute nothing: filtering them out of the segment beforehand leaves
the measurement unchanged. -/
theorem measureChars_filter (glyphs : GlyphMap) (startX : ℚ) (seg : List Nat) :
    ∀ x cp acc, measureChars glyphs startX seg x cp acc =
      measureChars glyphs startX (seg.filter (fun c => (lookupGlyph glyphs c).isSome))
        x cp acc := by
  induction seg with
  | nil => intro x cp acc; rfl
  | cons c rest ih =>
    intro x cp acc
    cases hc : lookupGlyph glyphs c with
    | none => simp [measureChars, hc, List.filter_cons, ih]
    | some g => simp [measureChars, hc, List.filter_cons, ih]

/-- C7: layout never fails on a missing glyph.  A character whose key is
absent from the asset is looked up under key "63" instead, and when that
is also absent the character is skipped: it contributes no placed glyph
and no advance, and measurement of the rest of the segment continues
unchanged. -/
theorem measureSegment_fallback_skip (glyphs : GlyphMap) (startX : ℚ)
    (prevCP : Option Nat) (seg : List Nat) :
    (∀ c, lookupRec glyphs (charKey c) = none →
      lookupGlyph glyphs c = lookupRec glyphs 63) ∧
    measureSegment seg startX glyphs prevCP =
      measureSegment (seg.filter (fun c => (lookupGlyph glyphs c).isSome))
        startX glyphs prevCP := by
  constructor
  · intro c hc
    unfold lookupGlyph
    rw [hc]
  · exact measureChars_filter glyphs startX seg 0 prevCP []

/-- Witness for C7: in an asset holding only key 66, the character 65
falls back to key 63 (absent, hence `none`) and is skipped: measuring
"AB" equals measuring "B". -/
theorem measureSegment_fallback_skip_witness :
    (lookupGlyph [(66, ⟨66, 7, []⟩)] 65 = lookupRec [(66, ⟨66, 7, []⟩)] 63) ∧
    measureSegment [65, 66] 0 [(66, ⟨66, 7, []⟩)] none =
      measureSegment [66] 0 [(66, ⟨66, 7, []⟩)] none := by
  have h := measureSegment_fallback_skip [(66, ⟨66, 7, []⟩)] 0 none [65, 66]
  refine ⟨h.1 65 (by decide), ?_⟩
  have h2 := h.2
  rw [show ([65, 66].filter
      (fun c => (lookupGlyph [(66, ⟨66, 7, []⟩)] c).isSome)) = [66] from by decide] at h2
  exact h2

/-! ## The amended scan order equals the code (C4) -/

theorem tryPage_eq_tryPageAmended (w h : Nat) (pg : PageLayout) :
    tryPage w h pg = tryPageAmended w h pg := by
  unfold tryPage tryPageAmended shelfPlaceOnPage newShelfOnPage
  cases placeInShelves w h pg.shelves <;> simp [Option.orElse]

theorem tryPages_eq_scanPages (w h : Nat) (pages : List PageLayout) :
    tryPages w h pages = scanPages (tryPageAmended w h) pages := by
  induction pages with
  | nil => rfl
  | cons pg rest ih =>
    unfold tryPages scanPages
    rw [tryPage_eq_tryPageAmended, ih]

theorem packStep_eq_amended (st : PackState) (g : GlyphBM) :
    packStep st g = packStepAmended st g := by
  unfold packStep packStepAmended
  rw [tryPages_eq_scanPages]

theorem packFold_eq_foldlM (gs : List GlyphBM) :
    ∀ st : PackState, packFold st gs = gs.foldlM packStepAmended st := by
  induction gs with
  | nil => intro st; rfl
  | cons g rest ih =>
    intro st
    rw [List.foldlM_cons]
    unfold packFold
    rw [packStep_eq_amended]
    cases packStepAmended st g with
    | ok st' => simpa using ih st'
    | error e => rfl

/-- C4 amended: for every input, `packGlyphs` equals the packer whose
per-glyph scan visits pages in order and, within each page, first scans
that page's shelves and then tries to open a new shelf on that same page
before moving on; a fresh page is allocated only when no page accepts
either way. -/
theorem packGlyphs_eq_amended (gs : List GlyphBM) :
    packGlyphs gs = packGlyphsAmended gs := by
  unfold packGlyphs packGlyphsAmended
  rw [packFold_eq_foldlM]

/-! ## Export keys are exactly the requested codepoints (C9) -/

/-- Each successful packing step appends exactly one placement, carrying
the glyph's codepoint and dimensions. -/
theorem packStep_ok_placements {st st' : PackState} {g : GlyphBM}
    (h : packStep st g = .ok st') :
    ∃ pl : Placement, pl.codepoint = g.codepoint ∧ pl.width = g.width ∧
      pl.height = g.height ∧ st'.placements = st.placements ++ [pl] := by
  unfold packStep at h
  cases htp : tryPages g.width g.height st.pages with
  | some r =>
    rw [htp] at h
    cases h
    exact ⟨_, rfl, rfl, rfl, rfl⟩
  | none =>
    rw [htp] at h
    by_cases hbig : g.width > PAGE_SIZE ∨ g.height > PAGE_SIZE
    · rw [if_pos hbig] at h; cases h
    · rw [if_neg hbig] at h
      cases h
      exact ⟨_, rfl, rfl, rfl, rfl⟩

/-- A successful run appends one placement per processed glyph, with the
codepoints in processing order. -/
theorem packFold_ok_codepoints {gs : List GlyphBM} :
    ∀ {st st' : PackState}, packFold st gs = .ok st' →
      st'.placements.map (·.codepoint) =
        st.placements.map (·.codepoint) ++ gs.map (·.codepoint) := by
  induction gs with
  | nil =>
    intro st st' h
    cases h
    simp
  | cons g rest ih =>
    intro st st' h
    unfold packFold at h
    cases hs : packStep st g with
    | error e => rw [hs] at h; cases h
    | ok stm =>
      rw [hs] at h
      obtain ⟨pl, hcp, _, _, hpl⟩ := packStep_ok_placements hs
      rw [ih h, hpl]
      simp [hcp]

/-- The list `dedupFirst` produces has no duplicates. -/
theorem dedupFirst_nodup (vals : List Nat) : (dedupFirst vals).Nodup := by
  suffices h : ∀ acc : List Nat, acc.Nodup →
      (vals.foldl (fun acc v => if v ∈ acc then acc else acc ++ [v]) acc).Nodup from
    h [] List.nodup_nil
  induction vals with
  | nil => intro acc h; exact h
  | cons v rest ih =>
    intro acc h
    simp only [List.foldl_cons]
    by_cases hv : v ∈ acc
    · rw [if_pos hv]; exact ih acc h
    · rw [if_neg hv]
      refine ih _ ?_
      simp [List.nodup_append, h, hv]

/-- The list `uniqueSorted` produces has no duplicates. -/
theorem uniqueSorted_nodup (vals : List Nat) : (uniqueSorted vals).Nodup :=
  ((List.perm_insertionSort _ _).nodup_iff).mpr (dedupFirst_nodup vals)

/-- C9: for a completed generation run, the exported `glyphs` keys are
exactly the requested codepoints: one key per requested codepoint, no
duplicates, no extras (the key list is a permutation of the requested
sorted de-duplicated set, and has no duplicates). -/
theorem exportGlyphKeys_claim (vals : List Nat) (dims : Nat → Nat × Nat)
    (ps : List Placement) (hok : packGlyphs (exportBitmaps vals dims) = .ok ps) :
    (exportGlyphKeys ps).Perm (uniqueSorted vals) ∧ (exportGlyphKeys ps).Nodup := by
  unfold packGlyphs at hok
  cases hf : packFold ⟨[⟨0, [], 0⟩], []⟩ (sortGlyphs (exportBitmaps vals dims)) with
  | error e => rw [hf] at hok; cases hok
  | ok stf =>
    rw [hf] at hok
    cases hok
    have hcp := packFold_ok_codepoints hf
    simp only [List.map_nil, List.nil_append] at hcp
    have hsp : ((sortGlyphs (exportBitmaps vals dims)).map (·.codepoint)).Perm
        ((exportBitmaps vals dims).map (·.codepoint)) :=
      (List.perm_insertionSort _ _).map _
    have hbm : (exportBitmaps vals dims).map (·.codepoint) = uniqueSorted vals := by
      unfold exportBitmaps
      rw [List.map_map]
      rw [show ((fun x : GlyphBM => x.codepoint) ∘
          fun cp => (⟨cp, (dims cp).1, (dims cp).2⟩ : GlyphBM)) = id from rfl, List.map_id]
    have hb2 : (List.map (fun x => x.codepoint) stf.placements).Perm (uniqueSorted vals) := by
      rw [hcp, ← hbm]
      exact hsp
    constructor
    · simpa [exportGlyphKeys] using hb2
    · simpa [exportGlyphKeys] using hb2.nodup_iff.mpr (uniqueSorted_nodup vals)

/-- Witness for C9: requesting {66, 65, 65} yields key list [65, 66], a
permutation of `uniqueSorted [66, 65, 65]` with no duplicates. -/
theorem exportGlyphKeys_claim_witness :
    (exportGlyphKeys [⟨65, 10, 10, 0, 0, 0⟩, ⟨66, 10, 10, 0, 10, 0⟩]).Perm
      (uniqueSorted [66, 65, 65]) ∧
    (exportGlyphKeys [⟨65, 10, 10, 0, 0, 0⟩, ⟨66, 10, 10, 0, 10, 0⟩]).Nodup :=
  exportGlyphKeys_claim [66, 65, 65] (fun _ => (10, 10)) _ (by decide)

/-! ## Packing invariants: characterizations of the placement scan -/

/-- A successful shelf scan splits the shelf list at the first fitting
shelf and advances its occupied width. -/
theorem placeInShelves_eq_some {w h : Nat} {shelves shelves' : List Shelf} {x y : Nat}
    (hc : placeInShelves w h shelves = some (shelves', x, y)) :
    ∃ l1 s l2, shelves = l1 ++ s :: l2 ∧
      (w + s.x ≤ PAGE_SIZE ∧ h ≤ s.height) ∧
      shelves' = l1 ++ { s with x := s.x + w } :: l2 ∧ x = s.x ∧ y = s.y := by
  induction shelves generalizing shelves' x y with
  | nil => cases hc
  | cons t rest ih =>
    unfold placeInShelves at hc
    by_cases hfit : w + t.x ≤ PAGE_SIZE ∧ h ≤ t.height
    · rw [if_pos hfit] at hc
      cases hc
      exact ⟨[], t, rest, rfl, hfit, rfl, rfl, rfl⟩
    · rw [if_neg hfit] at hc
      cases hr : placeInShelves w h rest with
      | none => rw [hr] at hc; cases hc
      | some r =>
        obtain ⟨r1, rx, ry⟩ := r
        rw [hr] at hc
        cases hc
        obtain ⟨l1, s, l2, he, hfit2, he2, hx, hy⟩ := ih hr
        exact ⟨t :: l1, s, l2, by rw [he]; rfl, hfit2, by rw [he2]; rfl, hx, hy⟩

/-- A successful per-page attempt either placed into an existing shelf
or opened a new shelf at the bottom of the page. -/
theorem tryPage_eq_some {w h : Nat} {pg pg' : PageLayout} {x y : Nat}
    (hc : tryPage w h pg = some (pg', x, y)) :
    (∃ sh', placeInShelves w h pg.shelves = some (sh', x, y) ∧
      pg' = { pg with shelves := sh' }) ∨
    (placeInShelves w h pg.shelves = none ∧ pg.usedHeight + h ≤ PAGE_SIZE ∧
      pg' = { pg with shelves := pg.shelves ++ [⟨pg.usedHeight, h, w⟩],
                      usedHeight := pg.usedHeight + h } ∧
      x = 0 ∧ y = pg.usedHeight) := by
  unfold tryPage at hc
  cases hp : placeInShelves w h pg.shelves with
  | some r =>
    obtain ⟨r1, rx, ry⟩ := r
    rw [hp] at hc
    cases hc
    exact .inl ⟨r1, rfl, rfl⟩
  | none =>
    rw [hp] at hc
    by_cases hroom : pg.usedHeight + h ≤ PAGE_SIZE
    · rw [if_pos hroom] at hc
      cases hc
      exact .inr ⟨rfl, hroom, rfl, rfl, rfl⟩
    · rw [if_neg hroom] at hc
      cases hc

/-- A successful page scan modifies exactly one page, the first
accepting one, and reports that page's `index`. -/
theorem tryPages_eq_some {w h : Nat} {pages pages' : List PageLayout} {pidx x y : Nat}
    (hc : tryPages w h pages = some (pages', pidx, x, y)) :
    ∃ P1 pg P2 pg', pages = P1 ++ pg :: P2 ∧ pages' = P1 ++ pg' :: P2 ∧
      tryPage w h pg = some (pg', x, y) ∧ pidx = pg.index := by
  induction pages generalizing pages' pidx x y with
  | nil => cases hc
  | cons pg rest ih =>
    unfold tryPages at hc
    cases hp : tryPage w h pg with
    | some r =>
      obtain ⟨pg1, rx, ry⟩ := r
      rw [hp] at hc
      cases hc
      exact ⟨[], pg, rest, pg1, rfl, rfl, hp, rfl⟩
    | none =>
      rw [hp] at hc
      cases hr : tryPages w h rest with
      | none => rw [hr] at hc; cases hc
      | some r =>
        obtain ⟨rest', rpidx, rx, ry⟩ := r
        rw [hr] at hc
        cases hc
        obtain ⟨P1, pgm, P2, pgm', he1, he2, htp, hidx⟩ := ih hr
        exact ⟨pg :: P1, pgm, P2, pgm', by rw [he1]; rfl, by rw [he2]; rfl, htp, hidx⟩

/-! ## Packing invariants: stacked-shelf lemmas -/

theorem shelvesStacked_le {l : List Shelf} : ∀ {y u}, shelvesStacked y l u → y ≤ u := by
  induction l with
  | nil => intro y u h; exact le_of_eq h.symm
  | cons t rest ih =>
    intro y u h
    exact le_trans (Nat.le_add_right y t.height) (ih h.2)

theorem shelvesStacked_mem {l : List Shelf} :
    ∀ {y u}, shelvesStacked y l u → ∀ s ∈ l, y ≤ s.y ∧ s.y + s.height ≤ u := by
  induction l with
  | nil => intro y u _ s hs; cases hs
  | cons t rest ih =>
    intro y u h s hs
    cases hs with
    | head =>
      refine ⟨le_of_eq h.1.symm, ?_⟩
      rw [h.1]
      exact shelvesStacked_le h.2
    | tail _ hmem =>
      obtain ⟨h1, h2⟩ := ih h.2 s hmem
      exact ⟨le_trans (Nat.le_add_right y t.height) h1, h2⟩

theorem shelvesStacked_pairwise {l : List Shelf} :
    ∀ {y u}, shelvesStacked y l u → l.Pairwise (fun a b => a.y + a.height ≤ b.y) := by
  induction l with
  | nil => intro y u _; exact List.Pairwise.nil
  | cons t rest ih =>
    intro y u h
    refine List.Pairwise.cons ?_ (ih h.2)
    intro b hb
    rw [h.1]
    exact (shelvesStacked_mem h.2 b hb).1

theorem shelvesStacked_append {l : List Shelf} {hh ww : Nat} :
    ∀ {y u}, shelvesStacked y l u →
      shelvesStacked y (l ++ [⟨u, hh, ww⟩]) (u + hh) := by
  induction l with
  | nil =>
    intro y u hst
    subst hst
    exact ⟨rfl, rfl⟩
  | cons t rest ih =>
    intro y u hst
    exact ⟨hst.1, ih hst.2⟩

theorem shelvesStacked_update {l1 l2 : List Shelf} {s : Shelf} {x' : Nat} :
    ∀ {y u}, shelvesStacked y (l1 ++ s :: l2) u →
      shelvesStacked y (l1 ++ { s with x := x' } :: l2) u := by
  induction l1 with
  | nil => intro y u h; exact ⟨h.1, h.2⟩
  | cons t rest ih => intro y u h; exact ⟨h.1, ih h.2⟩

/-! ## Packing invariants: list-index helpers -/

theorem getElem?_middle {α : Type} (P1 : List α) (a : α) (P2 : List α) :
    (P1 ++ a :: P2)[P1.length]? = some a := by
  rw [List.getElem?_append_right (le_refl _)]
  simp

theorem getElem?_middle_ne {α : Type} {P1 : List α} {a b : α} {P2 : List α} {i : Nat}
    (hne : i ≠ P1.length) :
    (P1 ++ a :: P2)[i]? = (P1 ++ b :: P2)[i]? := by
  rcases Nat.lt_or_ge i P1.length with hlt | hge
  · rw [List.getElem?_append, List.getElem?_append, if_pos hlt, if_pos hlt]
  · have hgt : P1.length < i := lt_of_le_of_ne hge (fun hh => hne hh.symm)
    rw [List.getElem?_append_right hge, List.getElem?_append_right hge]
    obtain ⟨k, hk⟩ : ∃ k, i - P1.length = k + 1 :=
      ⟨i - P1.length - 1, by omega⟩
    rw [hk, List.getElem?_cons_succ, List.getElem?_cons_succ]

/-- In a page list whose indices equal their positions, the middle page
of a decomposition has index equal to the prefix length. -/
theorem index_of_middle {P1 : List PageLayout} {pg : PageLayout} {P2 : List PageLayout}
    (hidx : (P1 ++ pg :: P2).map (·.index) = List.range (P1 ++ pg :: P2).length) :
    pg.index = P1.length := by
  have h1 : ((P1 ++ pg :: P2).map (·.index))[P1.length]? = some pg.index := by
    rw [List.getElem?_map, getElem?_middle]
    rfl
  have h2 : (List.range (P1 ++ pg :: P2).length)[P1.length]? = some P1.length := by
    apply List.getElem?_range
    simp
  rw [hidx, h2] at h1
  exact (Option.some_inj.mp h1).symm

/-! ## Packing invariants: per-page preservation -/

/-- Widening the occupied width of one shelf preserves the page
constraints of every placement already on the page. -/
theorem placedOnPage_shelfUpdate {p : Placement} {pg : PageLayout} {l1 l2 : List Shelf}
    {s : Shelf} {w : Nat} (hsh : pg.shelves = l1 ++ s :: l2)
    (hp : placedOnPage p pg) :
    placedOnPage p { pg with shelves := l1 ++ { s with x := s.x + w } :: l2 } := by
  obtain ⟨⟨t, ht, hfits⟩, hall⟩ := hp
  rw [hsh] at ht hall
  constructor
  · rcases List.mem_append.mp ht with h1 | h2
    · exact ⟨t, List.mem_append_left _ h1, hfits⟩
    · rcases List.mem_cons.mp h2 with he | h3
      · subst he
        obtain ⟨f1, f2, f3⟩ := hfits
        exact ⟨{ t with x := t.x + w },
          List.mem_append_right _ (List.mem_cons_self _ _),
          ⟨f1, f2, le_trans f3 (Nat.le_add_right _ _)⟩⟩
      · exact ⟨t, List.mem_append_right _ (List.mem_cons_of_mem _ h3), hfits⟩
  · intro t' ht' h1 h2 h3
    rcases List.mem_append.mp ht' with hh1 | hh2
    · exact hall t' (List.mem_append_left _ hh1) h1 h2 h3
    · rcases List.mem_cons.mp hh2 with he | hh3
      · subst he
        have hb := hall s (List.mem_append_right _ (List.mem_cons_self _ _)) h1 h2 h3
        exact le_trans hb (Nat.le_add_right _ _)
      · exact hall t' (List.mem_append_right _ (List.mem_cons_of_mem _ hh3)) h1 h2 h3

/-- Opening a fresh shelf at the bottom of the page preserves the page
constraints of every placement already on the page. -/
theorem placedOnPage_newShelf {p : Placement} {pg : PageLayout} {hh ww : Nat}
    (hpi : PageInv pg) (hp : placedOnPage p pg) :
    placedOnPage p { pg with shelves := pg.shelves ++ [⟨pg.usedHeight, hh, ww⟩],
                             usedHeight := pg.usedHeight + hh } := by
  obtain ⟨⟨t, ht, hfits⟩, hall⟩ := hp
  constructor
  · exact ⟨t, List.mem_append_left _ ht, hfits⟩
  · intro t' ht' h1 h2 h3
    rcases List.mem_append.mp ht' with hh1 | hh2
    · exact hall t' hh1 h1 h2 h3
    · rcases List.mem_cons.mp hh2 with he | hc
      · subst he
        obtain ⟨f1, f2, f3⟩ := hfits
        have hb := (shelvesStacked_mem hpi.stacked t ht).2
        have h3' : p.y = pg.usedHeight := h3
        omega
      · cases hc

/-- A successful per-page attempt keeps the page well-formed. -/
theorem tryPage_pageInv {w h : Nat} {pg pg' : PageLayout} {x y : Nat}
    (hpi : PageInv pg) (hc : tryPage w h pg = some (pg', x, y)) : PageInv pg' := by
  rcases tryPage_eq_some hc with ⟨sh', hps, he⟩ | ⟨_, hroom, he, _, _⟩
  · obtain ⟨l1, s, l2, hsh, _, hsh', _, _⟩ := placeInShelves_eq_some hps
    subst he
    refine ⟨?_, hpi.bounded⟩
    show shelvesStacked 0 sh' pg.usedHeight
    rw [hsh']
    exact shelvesStacked_update (hsh ▸ hpi.stacked)
  · subst he
    exact ⟨shelvesStacked_append hpi.stacked, hroom⟩

/-- The glyph just placed into an existing shelf satisfies its page
constraints. -/
theorem placedOnPage_new_shelfCase {pg : PageLayout} {l1 l2 : List Shelf} {s : Shelf}
    {cp w h pidx : Nat} (hpi : PageInv pg) (hsh : pg.shelves = l1 ++ s :: l2)
    (hfit : w + s.x ≤ PAGE_SIZE ∧ h ≤ s.height) :
    placedOnPage ⟨cp, w, h, pidx, s.x, s.y⟩
      { pg with shelves := l1 ++ { s with x := s.x + w } :: l2 } := by
  constructor
  · exact ⟨{ s with x := s.x + w },
      List.mem_append_right _ (List.mem_cons_self _ _), ⟨rfl, hfit.2, le_refl _⟩⟩
  · intro t' ht' h1 h2 h3
    have hpw := shelvesStacked_pairwise (hsh ▸ hpi.stacked)
    rw [List.pairwise_append] at hpw
    obtain ⟨_, hp2, hcross⟩ := hpw
    rcases List.mem_append.mp ht' with hh1 | hh2
    · have hband := hcross t' hh1 s (List.mem_cons_self _ _)
      have h3' : s.y = t'.y := h3
      have h1' : 0 < t'.height := h1
      omega
    · rcases List.mem_cons.mp hh2 with he | hh3
      · subst he
        show s.x + w ≤ s.x + w
        exact le_refl _
      · have hband := (List.pairwise_cons.mp hp2).1 t' hh3
        have h3' : s.y = t'.y := h3
        have h2' : 0 < h := h2
        have hsh : 0 < s.height := lt_of_lt_of_le h2' hfit.2
        omega

/-- The glyph just placed into a freshly opened shelf satisfies its page
constraints. -/
theorem placedOnPage_new_newShelfCase {pg : PageLayout} {cp w h pidx : Nat}
    (hpi : PageInv pg) :
    placedOnPage ⟨cp, w, h, pidx, 0, pg.usedHeight⟩
      { pg with shelves := pg.shelves ++ [⟨pg.usedHeight, h, w⟩],
                usedHeight := pg.usedHeight + h } := by
  constructor
  · exact ⟨⟨pg.usedHeight, h, w⟩,
      List.mem_append_right _ (List.mem_cons_self _ _),
      ⟨rfl, le_refl _, by show 0 + w ≤ w; omega⟩⟩
  · intro t' ht' h1 h2 h3
    rcases List.mem_append.mp ht' with hh1 | hh2
    · have hb := (shelvesStacked_mem hpi.stacked t' hh1).2
      have h3' : pg.usedHeight = t'.y := h3
      have h1' : 0 < t'.height := h1
      omega
    · rcases List.mem_cons.mp hh2 with he | hc
      · subst he
        show 0 + w ≤ w
        omega
      · cases hc

/-- One successful packing step preserves the packer invariant. -/
theorem packStep_preserves {st st' : PackState} {g : GlyphBM}
    (inv : PackInv st) (h : packStep st g = .ok st') : PackInv st' := by
  unfold packStep at h
  cases htp : tryPages g.width g.height st.pages with
  | some r =>
    obtain ⟨pages', pidx, x, y⟩ := r
    rw [htp] at h
    cases h
    obtain ⟨P1, pg, P2, pg', he1, he2, htpage, hidx⟩ := tryPages_eq_some htp
    subst he2
    have hpidx : pidx = P1.length := by
      rw [hidx]
      exact index_of_middle (he1 ▸ inv.idx)
    have hpgmem : pg ∈ st.pages := by
      rw [he1]
      exact List.mem_append_right _ (List.mem_cons_self _ _)
    have hpgInv : PageInv pg := inv.pinv pg hpgmem
    have hpg'Inv : PageInv pg' := tryPage_pageInv hpgInv htpage
    have hidx' : pg'.index = pg.index := by
      rcases tryPage_eq_some htpage with ⟨sh', _, he⟩ | ⟨_, _, he, _, _⟩ <;> rw [he]
    constructor
    · show (P1 ++ pg' :: P2).map (·.index) = List.range (P1 ++ pg' :: P2).length
      have hold := inv.idx
      rw [he1] at hold
      simp only [List.map_append, List.map_cons, List.length_append,
        List.length_cons] at hold ⊢
      rw [hidx']
      exact hold
    · intro q hq
      rcases List.mem_append.mp hq with h1 | h2
      · exact inv.pinv q (by rw [he1]; exact List.mem_append_left _ h1)
      · rcases List.mem_cons.mp h2 with he | h3
        · subst he; exact hpg'Inv
        · exact inv.pinv q
            (by rw [he1]; exact List.mem_append_right _ (List.mem_cons_of_mem _ h3))
    · intro q hq
      rcases List.mem_append.mp hq with hold | hnew
      · obtain ⟨pgq, hpgq, hplaced⟩ := inv.pageAt q hold
        by_cases hpq : q.page = P1.length
        · have hpgq_pg : pgq = pg := by
            rw [he1, hpq, getElem?_middle] at hpgq
            exact (Option.some_inj.mp hpgq).symm
          subst hpgq_pg
          refine ⟨pg', ?_, ?_⟩
          · rw [hpq]
            exact getElem?_middle _ _ _
          · rcases tryPage_eq_some htpage with ⟨sh', hps, he⟩ | ⟨_, hroom, he, _, _⟩
            · obtain ⟨l1, s, l2, hsh, hfit, hsh', hx, hy⟩ := placeInShelves_eq_some hps
              subst he
              show placedOnPage q { pgq with shelves := sh' }
              rw [hsh']
              exact placedOnPage_shelfUpdate hsh hplaced
            · subst he
              exact placedOnPage_newShelf hpgInv hplaced
        · refine ⟨pgq, ?_, hplaced⟩
          rw [getElem?_middle_ne hpq, ← he1]
          exact hpgq
      · rw [List.mem_singleton.mp hnew]
        refine ⟨pg', ?_, ?_⟩
        · show (P1 ++ pg' :: P2)[pidx]? = some pg'
          rw [hpidx]
          exact getElem?_middle _ _ _
        · rcases tryPage_eq_some htpage with ⟨sh', hps, he⟩ | ⟨_, hroom, he, hx0, hyu⟩
          · obtain ⟨l1, s, l2, hsh, hfit, hsh', hx, hy⟩ := placeInShelves_eq_some hps
            subst he hx hy
            show placedOnPage _ { pg with shelves := sh' }
            rw [hsh']
            exact placedOnPage_new_shelfCase hpgInv hsh hfit
          · subst he hx0 hyu
            exact placedOnPage_new_newShelfCase hpgInv
    · rw [List.pairwise_append]
      refine ⟨inv.disj, by simp, ?_⟩
      intro q hq pn hpn
      rw [List.mem_singleton.mp hpn]
      intro hpage hy hqh hph
      obtain ⟨pgq, hpgq, hplaced⟩ := inv.pageAt q hq
      have hpgq_pg : pgq = pg := by
        rw [hpage] at hpgq
        rw [he1, hpidx, getElem?_middle] at hpgq
        exact (Option.some_inj.mp hpgq).symm
      subst hpgq_pg
      rcases tryPage_eq_some htpage with ⟨sh', hps, he⟩ | ⟨_, hroom, he, hx0, hyu⟩
      · obtain ⟨l1, s, l2, hsh, hfit, hsh', hx, hy'⟩ := placeInShelves_eq_some hps
        subst hx hy'
        left
        have hsmem : s ∈ pgq.shelves := by
          rw [hsh]
          exact List.mem_append_right _ (List.mem_cons_self _ _)
        have hsheight : 0 < s.height := lt_of_lt_of_le hph hfit.2
        exact hplaced.2 s hsmem hsheight hqh hy
      · subst hyu
        exfalso
        obtain ⟨⟨t, ht, f1, f2, _⟩, _⟩ := hplaced
        have hb := (shelvesStacked_mem (inv.pinv pgq hpgmem).stacked t ht).2
        have hy' : q.y = pgq.usedHeight := hy
        omega
  | none =>
    rw [htp] at h
    by_cases hbig : g.width > PAGE_SIZE ∨ g.height > PAGE_SIZE
    · rw [if_pos hbig] at h; cases h
    · rw [if_neg hbig] at h
      cases h
      push_neg at hbig
      constructor
      · rw [List.map_append, inv.idx, List.length_append]
        simp [List.range_succ]
      · intro q hq
        rcases List.mem_append.mp hq with h1 | h2
        · exact inv.pinv q h1
        · rw [List.mem_singleton.mp h2]
          refine ⟨⟨rfl, ?_⟩, hbig.2⟩
          show g.height = 0 + g.height
          omega
      · intro q hq
        rcases List.mem_append.mp hq with hold | hnew
        · obtain ⟨pgq, hpgq, hplaced⟩ := inv.pageAt q hold
          refine ⟨pgq, ?_, hplaced⟩
          have hlt : q.page < st.pages.length := by
            rcases List.getElem?_eq_some.mp hpgq with ⟨hlt, _⟩
            exact hlt
          rw [List.getElem?_append, if_pos hlt]
          exact hpgq
        · rw [List.mem_singleton.mp hnew]
          refine ⟨_, List.getElem?_concat_length _ _, ?_, ?_⟩
          · exact ⟨⟨0, g.height, g.width⟩, List.mem_cons_self _ _,
              ⟨rfl, le_refl _, by show 0 + g.width ≤ g.width; omega⟩⟩
          · intro t' ht' h1 h2 h3
            rcases List.mem_cons.mp ht' with he | hc
            · subst he
              show 0 + g.width ≤ g.width
              omega
            · cases hc
      · rw [List.pairwise_append]
        refine ⟨inv.disj, by simp, ?_⟩
        intro q hq pn hpn
        rw [List.mem_singleton.mp hpn]
        intro hpage _ _ _
        obtain ⟨pgq, hpgq, _⟩ := inv.pageAt q hq
        have hlt : q.page < st.pages.length := by
          rcases List.getElem?_eq_some.mp hpgq with ⟨hlt, _⟩
          exact hlt
        have hpage' : q.page = st.pages.length := hpage
        exact absurd hpage' (by omega)

/-- The invariant holds for the initial state (one empty page, no
placements). -/
theorem packInv_init : PackInv ⟨[⟨0, [], 0⟩], []⟩ := by
  refine ⟨by decide, ?_, ?_, List.Pairwise.nil⟩
  · intro pg hpg
    rw [List.mem_singleton.mp hpg]
    exact ⟨rfl, Nat.zero_le _⟩
  · intro p hp
    cases hp

/-- The glyph loop preserves the packer invariant. -/
theorem packFold_preserves {gs : List GlyphBM} :
    ∀ {st st' : PackState}, PackInv st → packFold st gs = .ok st' → PackInv st' := by
  induction gs with
  | nil =>
    intro st st' inv h
    cases h
    exact inv
  | cons g rest ih =>
    intro st st' inv h
    unfold packFold at h
    cases hs : packStep st g with
    | error e => rw [hs] at h; cases h
    | ok stm =>
      rw [hs] at h
      exact ih (packStep_preserves inv hs) h

/-- From the invariant: placements on a common page never overlap. -/
theorem PackInv_noOverlap {st : PackState} (inv : PackInv st) :
    st.placements.Pairwise (fun p q => p.page = q.page → ¬ rectsOverlap p q) := by
  refine inv.disj.imp_of_mem ?_
  intro p q hp hq hR hpage hov
  obtain ⟨hxov, hyov⟩ := hov
  obtain ⟨hx1, hx2⟩ := lt_min_iff.mp (lt_of_le_of_lt (le_max_left _ _) hxov)
  obtain ⟨hx3, hx4⟩ := lt_min_iff.mp (lt_of_le_of_lt (le_max_right _ _) hxov)
  obtain ⟨hy1, hy2⟩ := lt_min_iff.mp (lt_of_le_of_lt (le_max_left _ _) hyov)
  obtain ⟨hy3, hy4⟩ := lt_min_iff.mp (lt_of_le_of_lt (le_max_right _ _) hyov)
  have hph : 0 < p.height := by omega
  have hqh : 0 < q.height := by omega
  by_cases hy : p.y = q.y
  · have := hR hpage hy hph hqh
    omega
  · obtain ⟨pgp, hpgp, hplacedp⟩ := inv.pageAt p hp
    obtain ⟨pgq, hpgq, hplacedq⟩ := inv.pageAt q hq
    rw [hpage] at hpgp
    have hpg_eq : pgp = pgq := by
      rw [hpgp] at hpgq
      exact Option.some_inj.mp hpgq
    subst hpg_eq
    have hpgmem : pgp ∈ st.pages := by
      obtain ⟨hlt, heq⟩ := List.getElem?_eq_some.mp hpgp
      exact heq ▸ List.getElem_mem hlt
    obtain ⟨sp, hsp, fp1, fp2, _⟩ := hplacedp.1
    obtain ⟨sq, hsq, fq1, fq2, _⟩ := hplacedq.1
    have hpair := shelvesStacked_pairwise (inv.pinv pgp hpgmem).stacked
    have hsym : pgp.shelves.Pairwise
        (fun a b => a.y + a.height ≤ b.y ∨ b.y + b.height ≤ a.y) :=
      hpair.imp (fun hband => Or.inl hband)
    have hne : sp ≠ sq := by
      intro hcontra
      rw [hcontra] at fp1
      exact hy (fp1.trans fq1.symm)
    have hband := hsym.forall
      (fun a b hab => by rcases hab with h1 | h2; exact Or.inr h1; exact Or.inl h2)
      hsp hsq hne
    rcases hband with h1 | h2 <;> omega

/-- C2: any two placements that a successful `packGlyphs` run puts on
the same page have disjoint axis-aligned rectangles. -/
theorem packGlyphs_noOverlap (gs : List GlyphBM) (ps : List Placement)
    (hok : packGlyphs gs = .ok ps) :
    ps.Pairwise (fun p q => p.page = q.page → ¬ rectsOverlap p q) := by
  unfold packGlyphs at hok
  cases hf : packFold ⟨[⟨0, [], 0⟩], []⟩ (sortGlyphs gs) with
  | error e => rw [hf] at hok; cases hok
  | ok stf =>
    rw [hf] at hok
    cases hok
    exact PackInv_noOverlap (packFold_preserves packInv_init hf)

/-- Witness for C2 on a concrete packed layout. -/
theorem packGlyphs_noOverlap_witness :
    ([⟨65, 10, 20, 0, 0, 0⟩, ⟨66, 10, 20, 0, 10, 0⟩] : List Placement).Pairwise
      (fun p q => p.page = q.page → ¬ rectsOverlap p q) :=
  packGlyphs_noOverlap [⟨65, 10, 20⟩, ⟨66, 10, 20⟩] _ (by decide)

/-- One packing step keeps every shelf's occupied width within the page,
provided the placed glyph is not over-wide. -/
theorem packStep_shelvesW {st st' : PackState} {g : GlyphBM} (hsw : shelvesW st)
    (hw : g.width ≤ PAGE_SIZE) (h : packStep st g = .ok st') : shelvesW st' := by
  unfold packStep at h
  cases htp : tryPages g.width g.height st.pages with
  | some r =>
    obtain ⟨pages', pidx, x, y⟩ := r
    rw [htp] at h
    cases h
    obtain ⟨P1, pg, P2, pg', he1, he2, htpage, _⟩ := tryPages_eq_some htp
    subst he2
    intro q hq
    rcases List.mem_append.mp hq with h1 | h2
    · exact hsw q (by rw [he1]; exact List.mem_append_left _ h1)
    · rcases List.mem_cons.mp h2 with he | h3
      · subst he
        intro s hs
        have hpg : ∀ t ∈ pg.shelves, t.x ≤ PAGE_SIZE :=
          hsw pg (by rw [he1]; exact List.mem_append_right _ (List.mem_cons_self _ _))
        rcases tryPage_eq_some htpage with ⟨sh', hps, hepg⟩ | ⟨_, hroom, hepg, _, _⟩
        · obtain ⟨l1, s0, l2, hsh, hfit, hsh', _, _⟩ := placeInShelves_eq_some hps
          subst hepg
          have hs' : s ∈ l1 ++ { s0 with x := s0.x + g.width } :: l2 := by
            rw [← hsh']
            exact hs
          rcases List.mem_append.mp hs' with hh1 | hh2
          · exact hpg s (by rw [hsh]; exact List.mem_append_left _ hh1)
          · rcases List.mem_cons.mp hh2 with he' | hh3
            · subst he'
              show s0.x + g.width ≤ PAGE_SIZE
              omega
            · exact hpg s
                (by rw [hsh]; exact List.mem_append_right _ (List.mem_cons_of_mem _ hh3))
        · subst hepg
          rcases List.mem_append.mp hs with hh1 | hh2
          · exact hpg s hh1
          · rcases List.mem_cons.mp hh2 with he' | hc
            · subst he'
              exact hw
            · cases hc
      · exact hsw q
          (by rw [he1]; exact List.mem_append_right _ (List.mem_cons_of_mem _ h3))
  | none =>
    rw [htp] at h
    by_cases hbig : g.width > PAGE_SIZE ∨ g.height > PAGE_SIZE
    · rw [if_pos hbig] at h; cases h
    · rw [if_neg hbig] at h
      cases h
      intro q hq
      rcases List.mem_append.mp hq with h1 | h2
      · exact hsw q h1
      · rw [List.mem_singleton.mp h2]
        intro s hs
        rcases List.mem_cons.mp hs with he' | hc
        · subst he'
          exact hw
        · cases hc

/-- The glyph loop keeps shelf widths within the page when every glyph
is at most a page wide. -/
theorem packFold_shelvesW {gs : List GlyphBM} :
    ∀ {st st' : PackState}, shelvesW st → (∀ g ∈ gs, g.width ≤ PAGE_SIZE) →
      packFold st gs = .ok st' → shelvesW st' := by
  induction gs with
  | nil =>
    intro st st' hsw _ h
    cases h
    exact hsw
  | cons g rest ih =>
    intro st st' hsw hws h
    unfold packFold at h
    cases hs : packStep st g with
    | error e => rw [hs] at h; cases h
    | ok stm =>
      rw [hs] at h
      exact ih (packStep_shelvesW hsw (hws g (List.mem_cons_self _ _)) hs)
        (fun g' hg' => hws g' (List.mem_cons_of_mem _ hg')) h

theorem shelvesW_init : shelvesW ⟨[⟨0, [], 0⟩], []⟩ := by
  intro pg hpg s hs
  rw [List.mem_singleton.mp hpg] at hs
  cases hs

/-- C1 amended: for every accepted input, every returned placement
satisfies `0 ≤ x`, `0 ≤ y` and `y + height ≤ pageSize`; the remaining
bound `x + width ≤ pageSize` additionally holds whenever every input
bitmap's width is at most `pageSize` (without that proviso it can fail,
because the too-large check only runs on a fresh page). -/
theorem packGlyphs_bounds_amended (gs : List GlyphBM) (ps : List Placement)
    (hok : packGlyphs gs = .ok ps) :
    (∀ p ∈ ps, 0 ≤ p.x ∧ 0 ≤ p.y ∧ p.y + p.height ≤ PAGE_SIZE) ∧
    ((∀ g ∈ gs, g.width ≤ PAGE_SIZE) → ∀ p ∈ ps, p.x + p.width ≤ PAGE_SIZE) := by
  unfold packGlyphs at hok
  cases hf : packFold ⟨[⟨0, [], 0⟩], []⟩ (sortGlyphs gs) with
  | error e => rw [hf] at hok; cases hok
  | ok stf =>
    rw [hf] at hok
    cases hok
    have inv := packFold_preserves packInv_init hf
    constructor
    · intro p hp
      obtain ⟨pg, hpg, ⟨s, hs, f1, f2, _⟩, _⟩ := inv.pageAt p hp
      have hpgmem : pg ∈ stf.pages := by
        obtain ⟨hlt, heq⟩ := List.getElem?_eq_some.mp hpg
        exact heq ▸ List.getElem_mem hlt
      have hpi := inv.pinv pg hpgmem
      have hb := (shelvesStacked_mem hpi.stacked s hs).2
      have hbd := hpi.bounded
      exact ⟨Nat.zero_le _, Nat.zero_le _, by omega⟩
    · intro hwidths p hp
      have hws : shelvesW stf := by
        refine packFold_shelvesW shelvesW_init ?_ hf
        intro g hg
        exact hwidths g ((List.perm_insertionSort _ _).mem_iff.mp hg)
      obtain ⟨pg, hpg, ⟨s, hs, _, _, f3⟩, _⟩ := inv.pageAt p hp
      have hpgmem : pg ∈ stf.pages := by
        obtain ⟨hlt, heq⟩ := List.getElem?_eq_some.mp hpg
        exact heq ▸ List.getElem_mem hlt
      exact le_trans f3 (hws pg hpgmem s hs)

/-- Witness for C1 amended on a concrete accepted run. -/
theorem packGlyphs_bounds_amended_witness :
    (∀ p ∈ ([⟨65, 10, 20, 0, 0, 0⟩, ⟨66, 10, 20, 0, 10, 0⟩] : List Placement),
      0 ≤ p.x ∧ 0 ≤ p.y ∧ p.y + p.height ≤ PAGE_SIZE) ∧
    ((∀ g ∈ ([⟨65, 10, 20⟩, ⟨66, 10, 20⟩] : List GlyphBM), g.width ≤ PAGE_SIZE) →
      ∀ p ∈ ([⟨65, 10, 20, 0, 0, 0⟩, ⟨66, 10, 20, 0, 10, 0⟩] : List Placement),
        p.x + p.width ≤ PAGE_SIZE) :=
  packGlyphs_bounds_amended [⟨65, 10, 20⟩, ⟨66, 10, 20⟩] _ (by decide)

/-! ## Line building (C6) -/

/-- The per-character loop only ever appends to its accumulator. -/
theorem measureChars_acc_prefix (glyphs : GlyphMap) (startX : ℚ) (seg : List Nat) :
    ∀ x cp acc, ∃ l, (measureChars glyphs startX seg x cp acc).1 = acc ++ l := by
  induction seg with
  | nil => intro x cp acc; exact ⟨[], by simp [measureChars]⟩
  | cons c rest ih =>
    intro x cp acc
    cases hc : lookupGlyph glyphs c with
    | none => simpa [measureChars, hc] using ih x cp acc
    | some g =>
      obtain ⟨l, hl⟩ := ih (x + g.xAdvance + kernFor g cp) (some (charKey c))
        (acc ++ [⟨g, startX + x + kernFor g cp, 0⟩])
      exact ⟨⟨g, startX + x + kernFor g cp, 0⟩ :: l, by simp [measureChars, hc, hl]⟩

/-- With a fallback entry under key 63 present, every character has a
usable glyph. -/
theorem lookupGlyph_isSome {glyphs : GlyphMap} (h63 : (lookupRec glyphs 63).isSome)
    (c : Nat) : (lookupGlyph glyphs c).isSome := by
  unfold lookupGlyph
  cases lookupRec glyphs (charKey c) with
  | none => exact h63
  | some g => rfl

/-- With the fallback present, a non-empty segment always produces at
least one placed glyph. -/
theorem measureSegment_ne_nil {glyphs : GlyphMap} (h63 : (lookupRec glyphs 63).isSome)
    {seg : List Nat} (hseg : seg ≠ []) (startX : ℚ) (prev : Option Nat) :
    (measureSegment seg startX glyphs prev).1 ≠ [] := by
  cases seg with
  | nil => exact absurd rfl hseg
  | cons c rest =>
    unfold measureSegment
    cases hc : lookupGlyph glyphs c with
    | none =>
      have := lookupGlyph_isSome h63 c
      rw [hc] at this
      cases this
    | some g =>
      obtain ⟨l, hl⟩ := measureChars_acc_prefix glyphs startX rest
        (0 + g.xAdvance + kernFor g prev) (some (charKey c))
        ([] ++ [⟨g, startX + 0 + kernFor g prev, 0⟩])
      simp only [measureChars, hc, hl]
      simp

/-- Segments produced by `breakIntoSegments` are never empty. -/
theorem breakIntoSegments_ne_nil (text : List Nat) :
    ∀ s ∈ breakIntoSegments text, s ≠ [] := by
  suffices h : ∀ (t buffer : List Nat) (ws : Bool) (acc : List (List Nat)),
      (∀ s ∈ acc, s ≠ []) → ∀ s ∈ breakAux t buffer ws acc, s ≠ [] from
    h text [] false [] (by intro s hs; cases hs)
  intro t
  induction t with
  | nil =>
    intro buffer ws acc hacc s hs
    unfold breakAux at hs
    by_cases hb : buffer.isEmpty
    · rw [if_pos hb] at hs
      exact hacc s hs
    · rw [if_neg hb] at hs
      rcases List.mem_append.mp hs with h1 | h2
      · exact hacc s h1
      · rw [List.mem_singleton.mp h2]
        intro hcontra
        rw [hcontra] at hb
        exact hb rfl
  | cons c rest ih =>
    intro buffer ws acc hacc s hs
    unfold breakAux at hs
    by_cases hcond : ¬ buffer.isEmpty = true ∧ isSpace c ≠ ws
    · rw [if_pos hcond] at hs
      refine ih [c] (isSpace c) (acc ++ [buffer]) ?_ s hs
      intro s' hs'
      rcases List.mem_append.mp hs' with h1 | h2
      · exact hacc s' h1
      · rw [List.mem_singleton.mp h2]
        intro hcontra
        rw [hcontra] at hcond
        exact hcond.1 rfl
    · rw [if_neg hcond] at hs
      exact ih (buffer ++ [c]) (isSpace c) acc hacc s hs

/-- One instrumented line-building step computes the same plain state. -/
theorem lineStep_forget (wrap : Bool) (maxW : ℚ) (glyphs : GlyphMap) (rowH b : ℚ)
    (st : LineStateA) (seg : List Nat) :
    lineStep wrap maxW glyphs rowH b (forgetSegs st) seg =
      forgetSegs (lineStepA wrap maxW glyphs rowH b st seg) := by
  unfold lineStep lineStepA forgetSegs commitLine commitLineA
  by_cases hc : wrap = true ∧
      maxW < st.xPos + (measureSegment seg st.xPos glyphs st.lastCP).2.1 ∧
      0 < st.cur.length
  · rw [if_pos hc, if_pos hc]
    simp
  · rw [if_neg hc, if_neg hc]

/-- The instrumented fold computes the same plain state. -/
theorem foldl_lineStep_forget (wrap : Bool) (maxW : ℚ) (glyphs : GlyphMap)
    (rowH b : ℚ) (segs : List (List Nat)) :
    ∀ st : LineStateA,
      segs.foldl (lineStep wrap maxW glyphs rowH b) (forgetSegs st) =
        forgetSegs (segs.foldl (lineStepA wrap maxW glyphs rowH b) st) := by
  induction segs with
  | nil => intro st; rfl
  | cons s rest ih =>
    intro st
    rw [List.foldl_cons, List.foldl_cons, lineStep_forget, ih]

/-- The builder `buildLinesFromSegments` is the segment-annotated builder with the
annotations forgotten. -/
theorem buildLines_forget (segs : List (List Nat)) (wrap : Bool) (maxW : ℚ)
    (glyphs : GlyphMap) (rowH b : ℚ) :
    buildLinesFromSegments segs wrap maxW glyphs rowH b =
      (buildLinesA segs wrap maxW glyphs rowH b).map (·.line) := by
  unfold buildLinesFromSegments buildLinesA
  rw [show (⟨[], [], 0, 0, none⟩ : LineState) = forgetSegs ⟨[], [], 0, 0, none, 0⟩ from rfl,
    foldl_lineStep_forget]
  simp only [forgetSegs]
  by_cases hc : 0 < (segs.foldl (lineStepA wrap maxW glyphs rowH b)
      ⟨[], [], 0, 0, none, 0⟩).cur.length
  · rw [if_pos hc, if_pos hc]
    simp [commitLine, commitLineA]
  · rw [if_neg hc, if_neg hc]

/-- The layout `layoutText` is the segment-annotated layout with the annotations
forgotten. -/
theorem layoutText_forget (text : List Nat) (maxW : ℚ) (asset : SpriteFontAsset) :
    layoutText text maxW asset = (layoutTextA text maxW asset).map (·.line) := by
  unfold layoutText layoutTextA
  suffices h : ∀ (paras : List (List Nat)) (acc : List AnnLine),
      paras.foldl (fun result para =>
        if para.isEmpty then
          result ++ [⟨[], 0, asset.info.lineHeight, asset.info.baseline⟩]
        else
          result ++ buildLinesFromSegments (breakIntoSegments para)
            (decide (0 < maxW)) maxW asset.glyphs asset.info.lineHeight
            asset.info.baseline) (acc.map (·.line)) =
      (paras.foldl (fun result para =>
        if para.isEmpty then
          result ++ [⟨⟨[], 0, asset.info.lineHeight, asset.info.baseline⟩, 0⟩]
        else
          result ++ buildLinesA (breakIntoSegments para)
            (decide (0 < maxW)) maxW asset.glyphs asset.info.lineHeight
            asset.info.baseline) acc).map (·.line) from h (splitParagraphs text) []
  intro paras
  induction paras with
  | nil => intro acc; rfl
  | cons para rest ih =>
    intro acc
    rw [List.foldl_cons, List.foldl_cons]
    by_cases hp : para.isEmpty
    · rw [if_pos hp, if_pos hp]
      rw [show (List.map (·.line) acc) ++
          [(⟨[], 0, asset.info.lineHeight, asset.info.baseline⟩ : TextLine)] =
          List.map (·.line) (acc ++
            [⟨⟨[], 0, asset.info.lineHeight, asset.info.baseline⟩, 0⟩]) from by
        simp]
      exact ih _
    · rw [if_neg hp, if_neg hp, buildLines_forget]
      rw [← List.map_append]
      exact ih _

/-- With the fallback present, one line-building step preserves the
invariant (the wrap check can only admit a segment while the line fits). -/
theorem lineStepA_inv {maxW : ℚ} {glyphs : GlyphMap} {rowH b : ℚ}
    (h63 : (lookupRec glyphs 63).isSome) {st : LineStateA} {seg : List Nat}
    (hseg : seg ≠ []) (hinv : LineInv maxW st) :
    LineInv maxW (lineStepA true maxW glyphs rowH b st seg) := by
  obtain ⟨hlines, hlw, hbound, hcur⟩ := hinv
  unfold lineStepA
  by_cases hc : (true : Bool) = true ∧
      maxW < st.xPos + (measureSegment seg st.xPos glyphs st.lastCP).2.1 ∧
      0 < st.cur.length
  · rw [if_pos hc]
    refine ⟨?_, rfl, ?_, ?_⟩
    · intro l hl
      rcases List.mem_append.mp hl with h1 | h2
      · exact hlines l h1
      · rw [List.mem_singleton.mp h2]
        exact ⟨fun hgt => hlw ▸ hbound hgt, fun hne => hcur hne⟩
    · intro hgt
      have hgt' : (1 : Nat) < 1 := hgt
      omega
    · intro _
      exact measureSegment_ne_nil h63 hseg 0 none
  · rw [if_neg hc]
    refine ⟨hlines, rfl, ?_, ?_⟩
    · intro hgt
      have hgt' : 1 < st.curSegs + 1 := hgt
      have hne : st.curSegs ≠ 0 := by omega
      have hcur' := hcur hne
      have hlen : 0 < st.cur.length := List.length_pos.mpr hcur'
      have hle : ¬ maxW < st.xPos + (measureSegment seg st.xPos glyphs st.lastCP).2.1 := by
        intro hlt
        exact hc ⟨rfl, hlt, hlen⟩
      exact le_of_not_lt hle
    · intro _
      intro hcontra
      have := measureSegment_ne_nil h63 hseg st.xPos st.lastCP
      rcases List.append_eq_nil.mp hcontra with ⟨_, h2⟩
      exact this h2

/-- The invariant holds after folding any list of non-empty segments. -/
theorem foldl_lineStepA_inv {maxW : ℚ} {glyphs : GlyphMap} (rowH b : ℚ)
    (h63 : (lookupRec glyphs 63).isSome) :
    ∀ (segs : List (List Nat)), (∀ s ∈ segs, s ≠ []) →
      ∀ st : LineStateA, LineInv maxW st →
        LineInv maxW (segs.foldl (lineStepA true maxW glyphs rowH b) st) := by
  intro segs
  induction segs with
  | nil => intro _ st hinv; exact hinv
  | cons s rest ih =>
    intro hsegs st hinv
    rw [List.foldl_cons]
    exact ih (fun s' hs' => hsegs s' (List.mem_cons_of_mem _ hs')) _
      (lineStepA_inv h63 (hsegs s (List.mem_cons_self _ _)) hinv)

/-- With wrapping on and the fallback present, every line built from
non-empty segments satisfies the C6 bounds. -/
theorem buildLinesA_good {maxW : ℚ} {glyphs : GlyphMap} {rowH b : ℚ}
    (h63 : (lookupRec glyphs 63).isSome) {segs : List (List Nat)}
    (hsegs : ∀ s ∈ segs, s ≠ []) :
    ∀ l ∈ buildLinesA segs true maxW glyphs rowH b, GoodLine maxW l := by
  have hinit : LineInv maxW ⟨[], [], 0, 0, none, 0⟩ := by
    refine ⟨?_, rfl, ?_, ?_⟩
    · intro l hl
      cases hl
    · intro hgt
      have hgt' : (1 : Nat) < 0 := hgt
      exact absurd hgt' (by omega)
    · intro hc
      exact absurd rfl hc
  have hinv := foldl_lineStepA_inv rowH b h63 segs hsegs
    ⟨[], [], 0, 0, none, 0⟩ hinit
  obtain ⟨hlines, hlw, hbound, hcur⟩ := hinv
  intro l hl
  unfold buildLinesA at hl
  by_cases hc : 0 < (segs.foldl (lineStepA true maxW glyphs rowH b)
      ⟨[], [], 0, 0, none, 0⟩).cur.length
  · rw [if_pos hc] at hl
    unfold commitLineA at hl
    rcases List.mem_append.mp hl with h1 | h2
    · exact hlines l h1
    · rw [List.mem_singleton.mp h2]
      exact ⟨fun hgt => hlw ▸ hbound hgt, fun hne => hcur hne⟩
  · rw [if_neg hc] at hl
    exact hlines l hl

/-- With wrapping enabled and the fallback present, every annotated line
of `layoutTextA` satisfies the C6 bounds. -/
theorem layoutTextA_good {text : List Nat} {W : ℚ} {asset : SpriteFontAsset}
    (hW : 0 < W) (h63 : (lookupRec asset.glyphs 63).isSome) :
    ∀ l ∈ layoutTextA text W asset, GoodLine W l := by
  have hwrap : decide (0 < W) = true := decide_eq_true hW
  simp only [layoutTextA, hwrap]
  suffices h : ∀ (paras : List (List Nat)) (acc : List AnnLine),
      (∀ l ∈ acc, GoodLine W l) →
      ∀ l ∈ paras.foldl (fun result para =>
        if para.isEmpty then
          result ++ [⟨⟨[], 0, asset.info.lineHeight, asset.info.baseline⟩, 0⟩]
        else
          result ++ buildLinesA (breakIntoSegments para) true W
            asset.glyphs asset.info.lineHeight asset.info.baseline) acc,
        GoodLine W l from
    h _ [] (by intro l hl; cases hl)
  intro paras
  induction paras with
  | nil => intro acc hacc l hl; exact hacc l hl
  | cons para rest ih =>
    intro acc hacc l hl
    rw [List.foldl_cons] at hl
    refine ih _ ?_ l hl
    intro l' hl'
    by_cases hp : para.isEmpty
    · rw [if_pos hp] at hl'
      rcases List.mem_append.mp hl' with h1 | h2
      · exact hacc l' h1
      · rw [List.mem_singleton.mp h2]
        constructor
        · intro hgt
          have hgt' : (1 : Nat) < 0 := hgt
          exact absurd hgt' (by omega)
        · intro hne
          exact absurd rfl hne
    · rw [if_neg hp] at hl'
      rcases List.mem_append.mp hl' with h1 | h2
      · exact hacc l' h1
      · exact buildLinesA_good h63 (breakIntoSegments_ne_nil para) l' h2

/-- C6 amended: with wrapping enabled (`W > 0`) and the fallback key 63
present in the asset (generated assets always include it), every
TextLine of `layoutText` built from more than one segment has width at
most `W` (equivalently, an overflowing line holds a single unsplit
segment), and every line built from at least one segment holds at least
one glyph (a segment is moved to a new line only when the current line
is non-empty); `layoutTextA` computes exactly the `layoutText` lines,
annotated with their segment counts. -/
theorem layoutText_wrap_amended (text : List Nat) (W : ℚ) (asset : SpriteFontAsset)
    (hW : 0 < W) (h63 : (lookupRec asset.glyphs 63).isSome) :
    (layoutTextA text W asset).map (·.line) = layoutText text W asset ∧
    ∀ l ∈ layoutTextA text W asset,
      (1 < l.segCount → l.line.width ≤ W) ∧ (l.segCount ≠ 0 → l.line.glyphs ≠ []) :=
  ⟨(layoutText_forget text W asset).symm,
   fun l hl => layoutTextA_good hW h63 l hl⟩

/-- Witness for C6 amended on the "A B" scenario at `W = 10`. -/
theorem layoutText_wrap_amended_witness :
    (layoutTextA [65, 32, 66] 10 exAsset).map (·.line) =
      layoutText [65, 32, 66] 10 exAsset ∧
    ∀ l ∈ layoutTextA [65, 32, 66] 10 exAsset,
      (1 < l.segCount → l.line.width ≤ 10) ∧ (l.segCount ≠ 0 → l.line.glyphs ≠ []) :=
  layoutText_wrap_amended [65, 32, 66] 10 exAsset (by norm_num)
    (by decide)

/-- C6 counterexample: in an asset with no key 63 where only "B" (66)
has a glyph, laying out "A B" at `W = 5` yields a single line built from
three segments ("A", " ", "B") whose width 10 exceeds `W`: a TextLine
containing more than one segment may exceed the wrap width when earlier
segments contribute no glyphs. -/
theorem layoutText_wrap_counterexample :
    layoutTextA [65, 32, 66] 5 exAssetNo63 =
      [⟨⟨[⟨⟨66, 10, []⟩, 0, 0⟩], 10, 12, 9⟩, 3⟩] ∧ ¬ ((10 : ℚ) ≤ 5) := by
  constructor
  · norm_num [layoutTextA, exAssetNo63, splitParagraphs, breakIntoSegments, breakAux,
      isSpace, jsWhitespace, lineStepA, commitLineA, buildLinesA, measureSegment,
      measureChars, lookupGlyph, lookupRec, charKey, kernFor]
    decide
  · norm_num

end TileEngine
